import Mathlib

/-!
Verification of the MIPSAssemblerC core against its specification.

Shallow embedding of the assembler's data model and operations, translated
from the C sources:
  src/include/instruction.h  (instruction-word construction macros)
  src/src/assembler.c        (segment cursors, branch offsets, encoder paths,
                              label definition, grammar-driver deferral)
  src/src/linkedlist.c       (deferred-work lists)
  src/src/symtable.c         (hash-chained symbol table)
  src/src/opcode.c           (opcode descriptor table)

C `offset_t`/`instruction_t` are `uint32_t`; they are modelled as `Nat`
with `% 2 ^ 32` applied exactly where C arithmetic wraps.  C `size_t` is
modelled as `Nat` with `% 2 ^ 64` where it wraps.  A negative C `int`
passed into a macro that masks its low bits is represented by its 32-bit
two's-complement bit pattern.
-/

/-- `CREATE_INSTRUCTION_R` from src/include/instruction.h:16:
`(0 | ((op & 0x3F) << 26) | ((rs & 0x1F) << 21) | ((rt & 0x1F) << 16) |
((rd & 0x1F) << 11) | ((shamt & 0x1F) << 6) | (funct & 0x3F))`. -/
def CREATE_INSTRUCTION_R (op rs rt rd shamt funct : Nat) : Nat :=
  ((op &&& 0x3F) <<< 26) ||| ((rs &&& 0x1F) <<< 21) ||| ((rt &&& 0x1F) <<< 16) |||
    ((rd &&& 0x1F) <<< 11) ||| ((shamt &&& 0x1F) <<< 6) ||| (funct &&& 0x3F)

/-- `CREATE_INSTRUCTION_I` from src/include/instruction.h:17:
`(0 | ((op & 0x3F) << 26) | ((rs & 0x1F) << 21) | ((rt & 0x1F) << 16) |
(imm & 0xFFFF))`. -/
def CREATE_INSTRUCTION_I (op rs rt imm : Nat) : Nat :=
  ((op &&& 0x3F) <<< 26) ||| ((rs &&& 0x1F) <<< 21) ||| ((rt &&& 0x1F) <<< 16) |||
    (imm &&& 0xFFFF)

/-- `CREATE_INSTRUCTION_J` from src/include/instruction.h:18:
`(0 | ((op & 0x3F) << 26) | ((address) & 0x3FFFFFF))`. -/
def CREATE_INSTRUCTION_J (op address : Nat) : Nat :=
  ((op &&& 0x3F) <<< 26) ||| (address &&& 0x3FFFFFF)

/-- `get_branch_offset` from src/src/assembler.c:258-260:
`return (entry->offset - (cfg_assembler->segment_offset[...] + 4)) >> 2;`
Both operands are `offset_t` (= `uint32_t`), so the subtraction wraps
modulo `2 ^ 32`: `a - b` on `uint32_t` is `(a + (2 ^ 32 - b % 2 ^ 32)) % 2 ^ 32`,
and `>> 2` is logical shift.  `target` is the symbol's `offset` field and
`cursor` the segment cursor at the moment the branch word is emitted. -/
def get_branch_offset (target cursor : Nat) : Nat :=
  ((target % 2 ^ 32 + (2 ^ 32 - (cursor + 4) % 2 ^ 32)) % 2 ^ 32) >>> 2

/-- `insert_front` from src/src/linkedlist.c:36-54: the new node is linked
before the current front (`node->next = list->front; list->front = node`),
so insertion is list `cons`. -/
def insert_front (l : List α) (v : α) : List α := v :: l

/-- The list built by a chronological sequence of `insert_front` calls,
as pass 1 builds both a symbol's deferred-instruction list
(assembler.c:667 and the other `insert_front(sym_entry->instr_list, ...)`
sites) and the touched-symbol list `decl_symlist` (assembler.c:545, 553,
572).  The end-of-assembly pass `program_cfg` (assembler.c:1523-1553)
walks the resulting list from `front` following `next`, i.e. in the order
of this list. -/
def deferred_list_after (inserts : List α) : List α :=
  inserts.foldl insert_front []

/-- `align_segment_offset` from src/src/assembler.c:133-143.  `n >= 31`
returns immediately; otherwise `dividend = 1 << n`,
`remainder = cursor & (dividend - 1)`, and if the remainder is non-zero
the cursor is advanced by `dividend - remainder` (a `uint32_t` addition,
hence the `% 2 ^ 32`). -/
def align_segment_offset (cursor n : Nat) : Nat :=
  if 31 ≤ n then cursor
  else
    if cursor &&& (1 <<< n - 1) ≠ 0 then
      (cursor + (1 <<< n - (cursor &&& (1 <<< n - 1)))) % 2 ^ 32
    else cursor

/-- Segment selector `SEGMENT_TEXT` (user text), src/include/symtable.h:29. -/
def SEGMENT_TEXT : Nat := 0x0

/-- Segment selector `SEGMENT_DATA` (user data), symtable.h:30. -/
def SEGMENT_DATA : Nat := 0x1

/-- Segment selector `SEGMENT_KTEXT` (kernel text), symtable.h:31. -/
def SEGMENT_KTEXT : Nat := 0x2

/-- Segment selector `SEGMENT_KDATA` (kernel data), symtable.h:32. -/
def SEGMENT_KDATA : Nat := 0x3

/-- The segment gate of `assemble_instruction` (assembler.c:1210-1215):
the error path (report to stderr, `status = ASSEMBLER_STATUS_FAIL`,
destroy the instruction, return 0 before any byte is emitted) is taken
exactly when `cfg_assembler->segment == SEGMENT_DATA`. -/
def assemble_instruction_rejects (segment : Nat) : Bool :=
  segment == SEGMENT_DATA

/-- The four data directives gated by `check_directive`
(assembler.c:1259-1262). -/
inductive DataDirective
  | ascii
  | asciiz
  | half
  | byte
deriving DecidableEq

/-- The segment gate of `check_directive` (assembler.c:1258-1270): for
`.ascii`, `.asciiz`, `.half`, `.byte` the error path (report, fail
status, destroy, return 0) is taken exactly when
`cfg_assembler->segment != SEGMENT_DATA`. -/
def check_directive_rejects (d : DataDirective) (segment : Nat) : Bool :=
  match d with
  | .ascii | .asciiz | .half | .byte => segment != SEGMENT_DATA

/-- The eight pseudo-branch mnemonics of `assemble_psuedo_instruction`
that take a register-or-immediate second operand (assembler.c:675-945
cases `MNEMONIC_BGE`, `MNEMONIC_BLE`, `MNEMONIC_BLT`, `MNEMONIC_BGT`,
`MNEMONIC_BLEU`, `MNEMONIC_BGEU`, `MNEMONIC_BLTU`, `MNEMONIC_BGTU`). -/
inductive PseudoBranch
  | bge
  | ble
  | blt
  | bgt
  | bleu
  | bgeu
  | bltu
  | bgtu
deriving DecidableEq

/-- The `size` field of the opcode descriptors for the eight
pseudo-branches: `0x8` for every one of them (src/src/opcode.c:73-77 and
107-110). -/
def pseudo_branch_size : PseudoBranch → Nat := fun _ => 0x8

/-- The words written by `assemble_psuedo_instruction` for a
pseudo-branch whose label operand is defined, transcribed case by case
from assembler.c:675-945.  `rtImm` is the C test
`rt->operand & OPERAND_IMMEDIATE`; `cursor` is the segment cursor when
the case starts, and each `write_instruction` advances it by 4, which is
why `get_branch_offset` receives `cursor + 4` after one emitted word and
`cursor + 8` after two.  The `-1` immediate of the BLE case
(assembler.c:711) is the 32-bit pattern `0xFFFFFFFF`. -/
def assemble_pseudo_branch (m : PseudoBranch) (rs rt imm : Nat) (rtImm : Bool)
    (target cursor : Nat) : List Nat :=
  match m with
  | .bge =>
    if rtImm then
      [CREATE_INSTRUCTION_I 0x0A rs 1 imm,
       CREATE_INSTRUCTION_I 0x04 1 0 (get_branch_offset target (cursor + 4))]
    else
      [CREATE_INSTRUCTION_R 0 rs rt 1 0 0x2A,
       CREATE_INSTRUCTION_I 0x04 1 0 (get_branch_offset target (cursor + 4))]
  | .ble =>
    if rtImm then
      [CREATE_INSTRUCTION_I 0x08 rs 1 0xFFFFFFFF,
       CREATE_INSTRUCTION_I 0x0A 1 1 imm,
       CREATE_INSTRUCTION_I 0x05 1 0 (get_branch_offset target (cursor + 8))]
    else
      [CREATE_INSTRUCTION_R 0 rt rs 1 0 0x2A,
       CREATE_INSTRUCTION_I 0x04 1 0 (get_branch_offset target (cursor + 4))]
  | .blt =>
    if rtImm then
      [CREATE_INSTRUCTION_I 0x0A rs 1 imm,
       CREATE_INSTRUCTION_I 0x05 1 0 (get_branch_offset target (cursor + 4))]
    else
      [CREATE_INSTRUCTION_R 0 rs rt 1 0 0x2A,
       CREATE_INSTRUCTION_I 0x05 1 0 (get_branch_offset target (cursor + 4))]
  | .bgt =>
    if rtImm then
      [CREATE_INSTRUCTION_I 0x08 0 1 imm,
       CREATE_INSTRUCTION_R 0 1 rs 1 0 0x2A,
       CREATE_INSTRUCTION_I 0x05 1 0 (get_branch_offset target (cursor + 8))]
    else
      [CREATE_INSTRUCTION_R 0 rt rs 1 0 0x2A,
       CREATE_INSTRUCTION_I 0x05 1 0 (get_branch_offset target (cursor + 4))]
  | .bleu =>
    if rtImm then
      [CREATE_INSTRUCTION_I 0x08 0 1 imm,
       CREATE_INSTRUCTION_R 0 1 rs 1 0 0x2B,
       CREATE_INSTRUCTION_I 0x04 1 0 (get_branch_offset target (cursor + 8))]
    else
      [CREATE_INSTRUCTION_R 0 rt rs 1 0 0x2B,
       CREATE_INSTRUCTION_I 0x04 1 0 (get_branch_offset target (cursor + 4))]
  | .bgeu =>
    if rtImm then
      [CREATE_INSTRUCTION_I 0x0B rs 1 imm,
       CREATE_INSTRUCTION_I 0x04 1 0 (get_branch_offset target (cursor + 4))]
    else
      [CREATE_INSTRUCTION_R 0 rs rt 1 0 0x2B,
       CREATE_INSTRUCTION_I 0x04 1 0 (get_branch_offset target (cursor + 4))]
  | .bltu =>
    if rtImm then
      [CREATE_INSTRUCTION_I 0x0B rs 1 imm,
       CREATE_INSTRUCTION_I 0x05 1 0 (get_branch_offset target (cursor + 4))]
    else
      [CREATE_INSTRUCTION_R 0 rs rt 1 0 0x2B,
       CREATE_INSTRUCTION_I 0x05 1 0 (get_branch_offset target (cursor + 4))]
  | .bgtu =>
    if rtImm then
      [CREATE_INSTRUCTION_I 0x08 0 1 imm,
       CREATE_INSTRUCTION_R 0 1 rs 1 0 0x2B,
       CREATE_INSTRUCTION_I 0x05 1 0 (get_branch_offset target (cursor + 8))]
    else
      [CREATE_INSTRUCTION_R 0 rt rs 1 0 0x2B,
       CREATE_INSTRUCTION_I 0x05 1 0 (get_branch_offset target (cursor + 4))]

/-- Bytes reserved when a pseudo-branch defers on an undefined label: the
extra `incr_segment_offset(0x4)` performed in the undefined path for the
rt-immediate shape of BLE (assembler.c:706), BGT (766), BLEU (863) and
BGTU (930) — BGE, BLT, BGEU and BLTU have no such extra increment — plus
the descriptor's `size` added by `incr_segment_offset(entry->size)` at
assembler.c:949.  On replay, `program_cfg` restores the snapshot cursor
and re-runs exactly the defined-path emission. -/
def pseudo_branch_reserved (m : PseudoBranch) (rtImm : Bool) : Nat :=
  (match m, rtImm with
   | .ble, true => 0x4
   | .bgt, true => 0x4
   | .bleu, true => 0x4
   | .bgtu, true => 0x4
   | _, _ => 0) + pseudo_branch_size m

/-- Classification used by the amended C3: the pseudo-branches whose
rt-immediate shape materializes the immediate with an extra leading
`ADDI` (three words); the other four fold the immediate into
`SLTI`/`SLTIU` (two words). -/
def pseudo_branch_imm_three_words (m : PseudoBranch) : Bool :=
  match m with
  | .ble | .bgt | .bleu | .bgtu => true
  | .bge | .blt | .bgeu | .bltu => false

/-- The words written by `assemble_psuedo_instruction` for `MNEMONIC_LI`
(assembler.c:622-639), with `immediate` the operand value converted to
`uint32_t`.  The branch structure is transcribed literally:
first test `((imm >> 15) & 0x1FFFF) != 0x1FFFF && ((imm >> 16) & 0xFFFF)
!= 0x0000` (LUI+ORI pair), then `((imm >> 16) & 0xFFFF) == 0x0000 &&
((imm >> 15) & 0x1)` (ORI), else ADDIU. -/
def assemble_li (rd imm : Nat) : List Nat :=
  if ((imm >>> 15) &&& 0x1FFFF) ≠ 0x1FFFF ∧ ((imm >>> 16) &&& 0xFFFF) ≠ 0x0000 then
    [CREATE_INSTRUCTION_I 0x0F 0 1 (imm >>> 16),
     CREATE_INSTRUCTION_I 0x0D 1 rd imm]
  else if ((imm >>> 16) &&& 0xFFFF) = 0x0000 ∧ ((imm >>> 15) &&& 0x1) ≠ 0 then
    [CREATE_INSTRUCTION_I 0x0D 0 rd imm]
  else
    [CREATE_INSTRUCTION_I 0x09 0 rd imm]

/-- The per-segment observable state for claim C4: the cursor
(`segment_offset`), the high-water mark (`segment_memory_offset`) and
whether the fail status has been raised.  The byte buffer itself is not
needed by the claims over this state. -/
structure SegState where
  cursor : Nat
  highWater : Nat
  failed : Bool
deriving DecidableEq

/-- `incr_segment_offset` from assembler.c:112-124: computes
`next_offset = segment_offset + offset` in `uint32_t`, reports and sets
`status = ASSEMBLER_STATUS_FAIL` when `next_offset >
SEGMENT_OFFSET_LIMIT[segment]`, and then adds the offset to the cursor
unconditionally (the cursor keeps the exceeding value).  The fail status
is sticky. -/
def incr_segment_offset (limit : Nat) (s : SegState) (offset : Nat) : SegState :=
  ⟨(s.cursor + offset) % 2 ^ 32, s.highWater,
    s.failed || decide (limit < (s.cursor + offset) % 2 ^ 32)⟩

/-- `write_segment_memory` from assembler.c:153-180 restricted to its
observable effect on this state: `buf_offset = segment_offset - base`
(`uint32_t` subtraction), `next_offset = buf_offset + size`, and
`segment_memory_offset` is raised to `next_offset` when exceeded.  The
1024-byte buffer growth only allocates memory and is elided. -/
def write_segment_memory (base : Nat) (s : SegState) (size : Nat) : SegState :=
  ⟨s.cursor,
    max s.highWater
      (((s.cursor + (2 ^ 32 - base % 2 ^ 32)) % 2 ^ 32 + size) % 2 ^ 32),
    s.failed⟩

/-- The cursor/high-water operations performed during assembly:
`emit n` is a write of `n` bytes followed by `incr_segment_offset n`
(the pattern of `write_instruction`, assembler.c:188-191, and of every
data-emitting directive); `skip n` is `incr_segment_offset n` alone
(`.space`, and the reservation made when an instruction defers);
`align n` is `align_segment_offset(n)`; `restore c` is the deferred
replay's cursor restoration `segment_offset[segment] = instr->offset`
(program_cfg, assembler.c:1540 and 1546). -/
inductive SegOp
  | emit (n : Nat)
  | skip (n : Nat)
  | align (n : Nat)
  | restore (c : Nat)
deriving DecidableEq

/-- One segment-state step (see `SegOp`). -/
def seg_step (base limit : Nat) (s : SegState) : SegOp → SegState
  | .emit n => incr_segment_offset limit (write_segment_memory base s n) n
  | .skip n => incr_segment_offset limit s n
  | .align n => ⟨align_segment_offset s.cursor n, s.highWater, s.failed⟩
  | .restore c => ⟨c, s.highWater, s.failed⟩

/-- Run a sequence of segment operations. -/
def seg_run (base limit : Nat) (s : SegState) (ops : List SegOp) : SegState :=
  ops.foldl (seg_step base limit) s

/-- The initial state of a segment: cursor at the segment base
(`create_assembler` / `execute_assembler`, assembler.c:1592-1596 and
1650-1653), empty image, status ok. -/
def seg_init (base : Nat) : SegState := ⟨base, 0, false⟩

/-- Guard characterizing a pass-1 step: no `restore` (those belong to the
deferred-replay pass) and no `uint32_t` wrap of the cursor advance. -/
def seg_step_ok (s : SegState) : SegOp → Bool
  | .emit n => decide (s.cursor + n < 2 ^ 32)
  | .skip n => decide (s.cursor + n < 2 ^ 32)
  | .align n => decide (31 ≤ n) || decide (s.cursor + 1 <<< n ≤ 2 ^ 32)
  | .restore _ => false

/-- Guard over a whole operation sequence, checked state by state. -/
def seg_run_ok (base limit : Nat) (s : SegState) : List SegOp → Bool
  | [] => true
  | op :: ops => seg_step_ok s op && seg_run_ok base limit (seg_step base limit s op) ops

/-- Operation sequences that contain no `align` step
(`align_segment_offset` advances the cursor without any limit check). -/
def seg_align_free (ops : List SegOp) : Bool :=
  ops.all fun op =>
    match op with
    | .align _ => false
    | _ => true

/-- Symbol status `SYMBOL_UNDEFINED`, src/include/symtable.h:40. -/
def SYMBOL_UNDEFINED : Nat := 0x0

/-- Symbol status `SYMBOL_DEFINED`, symtable.h:41. -/
def SYMBOL_DEFINED : Nat := 0x1

/-- Symbol status `SYMBOL_DOUBLY`, symtable.h:42. -/
def SYMBOL_DOUBLY : Nat := 0x2

/-- A `struct symbol_table_entry` (symtable.h:52-60) restricted to the
fields the claims are about.  `tag` stands for the entry's identity (the
address `malloc` returns in C): two entries created by two `insert`
calls carry different tags.  The `datasize` field and the deferred
`instr_list` play no role in the claims over this structure. -/
structure STEntry where
  key : List Nat
  status : Nat
  offset : Nat
  segment : Nat
  tag : Nat
deriving DecidableEq

/-- The symbol update performed by `label_cfg` when the identifier is
already in the table (assembler.c:328-345): a non-`UNDEFINED` status
becomes `SYMBOL_DOUBLY` and the error is reported (`Bool` result),
leaving `offset` and `segment` untouched; an `UNDEFINED` entry is
patched with the current cursor and segment and becomes
`SYMBOL_DEFINED`. -/
def label_cfg_existing (e : STEntry) (curOffset curSegment : Nat) : STEntry × Bool :=
  if e.status ≠ SYMBOL_UNDEFINED then
    ({ e with status := SYMBOL_DOUBLY }, true)
  else
    ({ e with offset := curOffset, segment := curSegment, status := SYMBOL_DEFINED }, false)

/-- `djb2hash` from src/src/symtable.c:41-50: `hash = hash * 33 + c`
starting from 5381, over the bytes of the key, in `size_t` (64-bit)
arithmetic. -/
def djb2hash (key : List Nat) : Nat :=
  key.foldl (fun h c => (h * 33 + c) % 2 ^ 64) 5381

/-- Bucket selection `djb2hash(key) % symtab->bucket_size`
(symtable.c:140, 110, 158). -/
def bucket_index (size : Nat) (key : List Nat) : Nat :=
  djb2hash key % size

/-- A `struct symbol_table` (symtable.h:62-66): the chained buckets and
the entry count.  `bucket_size` is `buckets.length`. -/
structure SymbolTable where
  buckets : List (List STEntry)
  length : Nat
deriving DecidableEq

/-- `create_symbol_table` (symtable.c:57-65): 32 empty buckets, length 0. -/
def create_symbol_table : SymbolTable :=
  ⟨List.replicate 32 [], 0⟩

/-- `insert_at_index_st` (symtable.c:74-83): increments `length` and
appends the entry at the tail of chain `index` (`while(head->next) ...;
head->next = entry`). -/
def insert_at_index_st (t : SymbolTable) (index : Nat) (entry : STEntry) : SymbolTable :=
  ⟨t.buckets.set index (t.buckets.getD index [] ++ [entry]), t.length + 1⟩

/-- The entry `insert_symbol_table` allocates (symtable.c:130-138):
status `SYMBOL_UNDEFINED`, offset 0, segment `SEGMENT_TEXT`. -/
def new_symbol_entry (key : List Nat) (tag : Nat) : STEntry :=
  ⟨key, SYMBOL_UNDEFINED, 0x00, SEGMENT_TEXT, tag⟩

/-- `percolate_symbol_table` (symtable.c:91-119): when the load factor
reaches 0.70 the bucket count doubles, the count resets, and every entry
is reinserted — old buckets in index order, each chain front to back —
with `insert_at_index_st` under the new size.  The C test is
`(float)length / bucket_size >= 0.7f`; since every reachable
`bucket_size` is `32 * 2^k`, `0.7 * bucket_size` is never an integer and
its distance to the nearest integer is at least 0.2, so for every size
below `2 ^ 24` the float comparison agrees exactly with
`7 * bucket_size <= 10 * length`, which is how it is modelled. -/
def percolate_symbol_table (t : SymbolTable) : SymbolTable :=
  if 7 * t.buckets.length ≤ 10 * t.length then
    t.buckets.flatten.foldl
      (fun acc e => insert_at_index_st acc (bucket_index (2 * t.buckets.length) e.key) e)
      ⟨List.replicate (2 * t.buckets.length) [], 0⟩
  else t

/-- `insert_symbol_table` (symtable.c:129-148): allocate the new entry,
append it to its bucket, then check the load and possibly percolate.
There is no duplicate check.  `tag` identifies the allocation. -/
def insert_symbol_table (t : SymbolTable) (key : List Nat) (tag : Nat) : SymbolTable :=
  percolate_symbol_table
    (insert_at_index_st t (bucket_index t.buckets.length key) (new_symbol_entry key tag))

/-- `get_symbol_table` (symtable.c:157-167): scan the key's bucket from
the head and return the first entry whose key compares equal. -/
def get_symbol_table (t : SymbolTable) (key : List Nat) : Option STEntry :=
  (t.buckets.getD (bucket_index t.buckets.length key) []).find? fun e => e.key == key

/-- Well-formedness of the hash table: at least one bucket, and every
entry sits in the bucket its key hashes to.  Every table the C code
builds through `insert_symbol_table` satisfies this. -/
def TableWF (t : SymbolTable) : Prop :=
  0 < t.buckets.length ∧
    ∀ i, i < t.buckets.length →
      ∀ e ∈ t.buckets.getD i [], bucket_index t.buckets.length e.key = i

instance TableWF.instDecidable (t : SymbolTable) : Decidable (TableWF t) := by
  unfold TableWF
  infer_instance

/-!
## Theorems
-/

/-- The low 16 bits of an I-format word are exactly the masked immediate:
the opcode/rs/rt fields all live at bit 16 and above. -/
theorem createI_mod_two_pow_16 (op rs rt imm : Nat) :
    CREATE_INSTRUCTION_I op rs rt imm % 2 ^ 16 = imm % 2 ^ 16 := by
  have h16 : (0xFFFF : Nat) = 2 ^ 16 - 1 := by norm_num
  apply Nat.eq_of_testBit_eq
  intro i
  by_cases hi : i < 16
  · simp only [CREATE_INSTRUCTION_I, h16, Nat.and_pow_two_sub_one_eq_mod,
      Nat.testBit_mod_two_pow, Nat.testBit_or, Nat.testBit_shiftLeft, ge_iff_le]
    have h26 : ¬ (26 ≤ i) := by omega
    have h21 : ¬ (21 ≤ i) := by omega
    have h16' : ¬ (16 ≤ i) := by omega
    simp [hi, h26, h21, h16']
  · simp only [Nat.testBit_mod_two_pow]
    simp [hi]

/-- C1: For every branch instruction whose label operand is resolved at
encode time, the emitted word is `CREATE_INSTRUCTION_I op rs rt
(get_branch_offset target cursor)` (assembler.c:671, 692, 713, 717, 732,
753, 774, 778, 841, 870, 874, 896, 917, 938, 942, 1100, 1124, 1127), and
its low 16 bits equal `(target - (cursor + 4)) >> 2` computed in 32-bit
unsigned arithmetic with wrap-around — equivalently the mathematical
integer difference reduced modulo `2 ^ 32`, shifted right by 2 and
truncated to 16 bits. -/
theorem c1_branch_low16 (op rs rt target cursor : Nat) :
    CREATE_INSTRUCTION_I op rs rt (get_branch_offset target cursor) % 2 ^ 16
      = ((((target : Int) - ((cursor : Int) + 4)) % 2 ^ 32).toNat >>> 2) % 2 ^ 16 := by
  rw [createI_mod_two_pow_16, get_branch_offset,
    Nat.shiftRight_eq_div_pow, Nat.shiftRight_eq_div_pow]
  omega

/-- C2 counterexample: two records deferred in chronological order
`[0, 1]` are replayed as `[1, 0]`, not in insertion order `[0, 1]` as
the claim states. -/
theorem c2_replay_order_counterexample :
    deferred_list_after [0, 1] ≠ [0, 1] := by decide

/-- Helper for C2: folding `insert_front` over a chronological sequence
reverses it onto the accumulator. -/
theorem foldl_insert_front (inserts acc : List α) :
    inserts.foldl insert_front acc = inserts.reverse ++ acc := by
  induction inserts generalizing acc with
  | nil => simp
  | cons x xs ih => simp [insert_front, ih]

/-- C2 amended: because `insert_front` prepends and the replay pass walks
the list front-to-rear, the records hanging off a single symbol are
re-encoded in reverse insertion order (most recent reference first), and
symbols are processed in reverse touched order (the symbol first touched
last is processed first). -/
theorem c2_replay_is_reverse_insertion (inserts : List α) :
    deferred_list_after inserts = inserts.reverse := by
  simpa using foldl_insert_front inserts []

/-- Helper: `align_segment_offset` is the identity for every `n ≥ 31`
(the early return at assembler.c:135). -/
theorem align_segment_offset_ge31 (cursor k : Nat) (hk : 31 ≤ k) :
    align_segment_offset cursor k = cursor := by
  simp [align_segment_offset, hk]

/-- Helper: `align_segment_offset` is the identity for `n = 0`
(`dividend = 1`, so the remainder mask is 0). -/
theorem align_segment_offset_zero (cursor : Nat) :
    align_segment_offset cursor 0 = cursor := by
  simp [align_segment_offset]

/-- Helper: full characterization of `align_segment_offset` for
`1 ≤ n ≤ 30` when the advance does not wrap `uint32_t`: the result is
the least multiple of `2 ^ n` not below the cursor. -/
theorem align_segment_offset_spec (cursor n : Nat) (hn1 : 1 ≤ n) (hn2 : n ≤ 30)
    (hfit : cursor + 2 ^ n ≤ 2 ^ 32) :
    align_segment_offset cursor n % 2 ^ n = 0
    ∧ cursor ≤ align_segment_offset cursor n
    ∧ align_segment_offset cursor n < cursor + 2 ^ n
    ∧ (∀ m, cursor ≤ m → m % 2 ^ n = 0 → align_segment_offset cursor n ≤ m)
    ∧ (cursor % 2 ^ n = 0 → align_segment_offset cursor n = cursor) := by
  have hn31 : ¬ (31 ≤ n) := by omega
  have hmask : 1 <<< n - 1 = 2 ^ n - 1 := by
    rw [Nat.shiftLeft_eq, one_mul]
  have hand : cursor &&& (1 <<< n - 1) = cursor % 2 ^ n := by
    rw [hmask, Nat.and_pow_two_sub_one_eq_mod]
  have hpow : 1 <<< n = 2 ^ n := by rw [Nat.shiftLeft_eq, one_mul]
  have hppos : 0 < 2 ^ n := pow_pos (by norm_num) n
  have hrlt : cursor % 2 ^ n < 2 ^ n := Nat.mod_lt _ hppos
  by_cases hr : cursor % 2 ^ n = 0
  · have heq : align_segment_offset cursor n = cursor := by
      simp [align_segment_offset, hn31, hand, hr]
    refine ⟨by rw [heq]; exact hr, by rw [heq],
      by rw [heq]; exact Nat.lt_add_of_pos_right hppos, ?_, fun _ => heq⟩
    intro m hm _
    rw [heq]; exact hm
  · have hr0 : 0 < cursor % 2 ^ n := Nat.pos_of_ne_zero hr
    have hltp : cursor + (2 ^ n - cursor % 2 ^ n) < cursor + 2 ^ n :=
      Nat.add_lt_add_left (Nat.sub_lt hppos hr0) cursor
    have hlt : cursor + (2 ^ n - cursor % 2 ^ n) < 4294967296 := by
      have h := lt_of_lt_of_le hltp hfit
      simpa using h
    have heq : align_segment_offset cursor n
        = cursor + (2 ^ n - cursor % 2 ^ n) := by
      simp [align_segment_offset, hn31, hand, hpow, hr, Nat.mod_eq_of_lt hlt]
    have hsplit : cursor + (2 ^ n - cursor % 2 ^ n)
        = 2 ^ n * (cursor / 2 ^ n) + 2 ^ n := by
      calc cursor + (2 ^ n - cursor % 2 ^ n)
          = 2 ^ n * (cursor / 2 ^ n) + cursor % 2 ^ n + (2 ^ n - cursor % 2 ^ n) := by
            rw [Nat.div_add_mod]
        _ = 2 ^ n * (cursor / 2 ^ n) + 2 ^ n := by
            rw [Nat.add_assoc, Nat.add_sub_cancel' (le_of_lt hrlt)]
    have hdvd : (cursor + (2 ^ n - cursor % 2 ^ n)) % 2 ^ n = 0 := by
      rw [hsplit, show 2 ^ n * (cursor / 2 ^ n) + 2 ^ n
        = 2 ^ n * (cursor / 2 ^ n + 1) by ring]
      exact Nat.mul_mod_right _ _
    refine ⟨by rw [heq]; exact hdvd, by rw [heq]; exact Nat.le_add_right _ _,
      by rw [heq]; exact hltp, ?_, fun h => absurd h hr⟩
    intro m hm hmod
    rw [heq]
    by_cases hvm : cursor + (2 ^ n - cursor % 2 ^ n) ≤ m
    · exact hvm
    · push_neg at hvm
      have hd1 : 2 ^ n ∣ (cursor + (2 ^ n - cursor % 2 ^ n)) :=
        Nat.dvd_of_mod_eq_zero hdvd
      have hd2 : 2 ^ n ∣ m := Nat.dvd_of_mod_eq_zero hmod
      have hd3 : 2 ^ n ∣ (cursor + (2 ^ n - cursor % 2 ^ n) - m) := Nat.dvd_sub' hd1 hd2
      have hsub_lt : cursor + (2 ^ n - cursor % 2 ^ n) - m < 2 ^ n := by
        rw [tsub_lt_iff_right (le_of_lt hvm)]
        calc cursor + (2 ^ n - cursor % 2 ^ n) < cursor + 2 ^ n := hltp
          _ ≤ m + 2 ^ n := Nat.add_le_add_right hm _
          _ = 2 ^ n + m := Nat.add_comm _ _
      have hz : cursor + (2 ^ n - cursor % 2 ^ n) - m = 0 :=
        Nat.eq_zero_of_dvd_of_lt hd3 hsub_lt
      exact absurd (Nat.le_of_sub_eq_zero hz) (not_le.mpr hvm)

/-- C5 counterexample: the claim covers every `n` in `[1, 31]`, but
`align_segment_offset` returns immediately for every `n ≥ 31`
(assembler.c:135), so from the concrete text-segment cursor `0x00400004`
an `.align 31` leaves the cursor at `0x00400004`, which is not a multiple
of `2 ^ 31`. -/
theorem c5_align31_counterexample :
    ¬ (align_segment_offset 0x00400004 31 % 2 ^ 31 = 0) := by decide

/-- C5 amended: for every `n` in `[1, 30]` — not 31, where the guard
`n >= 31` returns immediately — and provided the advance does not wrap
`uint32_t` (`cursor + 2 ^ n ≤ 2 ^ 32`), after `align_segment_offset` the
cursor is the smallest multiple of `2 ^ n` not below the old cursor, the
cursor is unchanged when it was already a multiple of `2 ^ n`, and both
`n = 0` and every `n ≥ 31` are no-ops. -/
theorem c5_align_segment_correct (cursor n : Nat) (hn1 : 1 ≤ n) (hn2 : n ≤ 30)
    (hfit : cursor + 2 ^ n ≤ 2 ^ 32) :
    align_segment_offset cursor n % 2 ^ n = 0
    ∧ cursor ≤ align_segment_offset cursor n
    ∧ align_segment_offset cursor n < cursor + 2 ^ n
    ∧ (∀ m, cursor ≤ m → m % 2 ^ n = 0 → align_segment_offset cursor n ≤ m)
    ∧ (cursor % 2 ^ n = 0 → align_segment_offset cursor n = cursor)
    ∧ align_segment_offset cursor 0 = cursor
    ∧ (∀ k, 31 ≤ k → align_segment_offset cursor k = cursor) := by
  obtain ⟨h1, h2, h3, h4, h5⟩ := align_segment_offset_spec cursor n hn1 hn2 hfit
  exact ⟨h1, h2, h3, h4, h5, align_segment_offset_zero cursor,
    fun k hk => align_segment_offset_ge31 cursor k hk⟩

/-- C5 witness: `.align 2` from the unaligned user-data cursor
`0x10010001` lands on a multiple of 4 without moving past
`0x10010001 + 4`. -/
theorem c5_align_witness :
    1 ≤ 2 ∧ 2 ≤ 30 ∧ 0x10010001 + 2 ^ 2 ≤ 2 ^ 32
    ∧ align_segment_offset 0x10010001 2 % 2 ^ 2 = 0 :=
  ⟨by norm_num, by norm_num, by norm_num,
    (c5_align_segment_correct 0x10010001 2 (by norm_num) (by norm_num) (by norm_num)).1⟩

/-- C8 counterexample: the claim says an instruction mnemonic in the
kernel-data segment is rejected, but `assemble_instruction` compares the
active segment against `SEGMENT_DATA` only (assembler.c:1210), so in
`SEGMENT_KDATA` the gate does not fire and the instruction is encoded
into the kernel-data segment. -/
theorem c8_kdata_instruction_counterexample :
    ¬ (assemble_instruction_rejects SEGMENT_KDATA = true) := by decide

/-- C8 amended: an instruction mnemonic is rejected (error reported,
status set to fail, no bytes emitted) exactly when the active segment is
the user-data segment — kernel-data is not checked — while `.ascii`,
`.asciiz`, `.half` and `.byte` are rejected exactly when the active
segment is anything other than user-data (including kernel-data). -/
theorem c8_segment_gates (segment : Nat) :
    (assemble_instruction_rejects segment = true ↔ segment = SEGMENT_DATA)
    ∧ ∀ d : DataDirective,
        check_directive_rejects d segment = true ↔ segment ≠ SEGMENT_DATA := by
  constructor
  · simp [assemble_instruction_rejects]
  · intro d
    cases d <;> simp [check_directive_rejects]

/-- C10: when a label definition reaches `label_cfg` for an entry whose
status is already `SYMBOL_DEFINED` or `SYMBOL_DOUBLY`, the status is set
to `SYMBOL_DOUBLY` and the error is reported, while the entry's `offset`
and `segment` (and key) keep the values recorded at the first
definition; moreover a `SYMBOL_DOUBLY` entry never leaves that status
under further label definitions (assembler.c:328-345; no other code
writes the status field). -/
theorem c10_label_redefinition (e : STEntry) (curOffset curSegment : Nat)
    (h : e.status = SYMBOL_DEFINED ∨ e.status = SYMBOL_DOUBLY) :
    (label_cfg_existing e curOffset curSegment).1.status = SYMBOL_DOUBLY
    ∧ (label_cfg_existing e curOffset curSegment).2 = true
    ∧ (label_cfg_existing e curOffset curSegment).1.offset = e.offset
    ∧ (label_cfg_existing e curOffset curSegment).1.segment = e.segment
    ∧ (label_cfg_existing e curOffset curSegment).1.key = e.key
    ∧ ∀ e' o s, e'.status = SYMBOL_DOUBLY →
        (label_cfg_existing e' o s).1.status = SYMBOL_DOUBLY := by
  have hne : e.status ≠ SYMBOL_UNDEFINED := by
    rcases h with h | h <;>
      simp [h, SYMBOL_DEFINED, SYMBOL_DOUBLY, SYMBOL_UNDEFINED]
  refine ⟨?_, ?_, ?_, ?_, ?_, ?_⟩
  · simp [label_cfg_existing, hne]
  · simp [label_cfg_existing, hne]
  · simp [label_cfg_existing, hne]
  · simp [label_cfg_existing, hne]
  · simp [label_cfg_existing, hne]
  · intro e' o s h'
    have hne' : e'.status ≠ SYMBOL_UNDEFINED := by
      simp [h', SYMBOL_DOUBLY, SYMBOL_UNDEFINED]
    simp [label_cfg_existing, hne']

/-- C10 witness: a label already defined at text offset `0x00400004`
redefined at data offset `0x10010000` keeps its original offset and
becomes doubly-defined. -/
theorem c10_label_witness :
    ((⟨[0x61], SYMBOL_DEFINED, 0x00400004, SEGMENT_TEXT, 0⟩ : STEntry).status = SYMBOL_DEFINED
      ∨ (⟨[0x61], SYMBOL_DEFINED, 0x00400004, SEGMENT_TEXT, 0⟩ : STEntry).status = SYMBOL_DOUBLY)
    ∧ (label_cfg_existing ⟨[0x61], SYMBOL_DEFINED, 0x00400004, SEGMENT_TEXT, 0⟩
        0x10010000 SEGMENT_DATA).1.offset = 0x00400004
    ∧ (label_cfg_existing ⟨[0x61], SYMBOL_DEFINED, 0x00400004, SEGMENT_TEXT, 0⟩
        0x10010000 SEGMENT_DATA).1.status = SYMBOL_DOUBLY :=
  ⟨Or.inl rfl,
    (c10_label_redefinition ⟨[0x61], SYMBOL_DEFINED, 0x00400004, SEGMENT_TEXT, 0⟩
      0x10010000 SEGMENT_DATA (Or.inl rfl)).2.2.1,
    (c10_label_redefinition ⟨[0x61], SYMBOL_DEFINED, 0x00400004, SEGMENT_TEXT, 0⟩
      0x10010000 SEGMENT_DATA (Or.inl rfl)).1⟩

/-- C3 counterexample: the claim says the immediate form of every
pseudo-branch emits 12 bytes, but `bge $t1, 5, label` with a defined
label emits the two-word sequence `SLTI $1, $t1, 5; BEQ $1, $0, off`
(assembler.c:688-692) — 8 bytes, not 12. -/
theorem c3_bge_immediate_counterexample :
    4 * (assemble_pseudo_branch .bge 9 0 5 true 0x00400008 0x00400000).length ≠ 12 := by
  decide

/-- C3 amended: every pseudo-branch BGE/BLE/BLT/BGT/BLEU/BGEU/BLTU/BGTU
with a defined label emits exactly 8 bytes in register form; in
immediate form BLE, BGT, BLEU and BGTU emit 12 bytes (an extra `ADDI`
materializing the immediate precedes the compare-and-branch) while BGE,
BLT, BGEU and BLTU emit 8 bytes (the immediate is folded into
`SLTI`/`SLTIU`); and in every resolution path the number of bytes
emitted equals the number of bytes reserved when the instruction defers
(descriptor size plus the extra immediate-shape reservation), so the
deferred replay at the snapshot cursor fills exactly the reserved
space. -/
theorem c3_pseudo_branch_sizes (m : PseudoBranch) (rs rt imm : Nat) (rtImm : Bool)
    (target cursor : Nat) :
    4 * (assemble_pseudo_branch m rs rt imm rtImm target cursor).length
      = pseudo_branch_reserved m rtImm
    ∧ 4 * (assemble_pseudo_branch m rs rt imm rtImm target cursor).length
      = if rtImm && pseudo_branch_imm_three_words m then 12 else 8 := by
  cases m <;> cases rtImm <;>
    simp [assemble_pseudo_branch, pseudo_branch_reserved, pseudo_branch_size,
      pseudo_branch_imm_three_words]

/-- C6: for `li rd, imm` with `imm` the operand as `uint32_t`: if `imm`
sign-extends from 16 bits (bits 15..31 all zero or all one, i.e.
`imm >> 15` is 0 or 0x1FFFF), exactly one word `ADDIU rd, $0, imm` is
emitted; if the upper 16 bits are zero but bit 15 is set, exactly one
word `ORI rd, $0, imm`; otherwise exactly the two words `LUI $1, hi16`
then `ORI rd, $1, lo16` (assembler.c:622-639). -/
theorem c6_li_encoding (rd imm : Nat) (himm : imm < 2 ^ 32) :
    ((imm >>> 15 = 0 ∨ imm >>> 15 = 0x1FFFF) →
        assemble_li rd imm = [CREATE_INSTRUCTION_I 0x09 0 rd imm])
    ∧ ((imm >>> 16 = 0 ∧ (imm >>> 15) % 2 = 1) →
        assemble_li rd imm = [CREATE_INSTRUCTION_I 0x0D 0 rd imm])
    ∧ (¬ (imm >>> 15 = 0 ∨ imm >>> 15 = 0x1FFFF) →
        ¬ (imm >>> 16 = 0 ∧ (imm >>> 15) % 2 = 1) →
        assemble_li rd imm = [CREATE_INSTRUCTION_I 0x0F 0 1 (imm >>> 16),
          CREATE_INSTRUCTION_I 0x0D 1 rd imm]) := by
  have e17 : ∀ x : Nat, x &&& 0x1FFFF = x % 2 ^ 17 := fun x => by
    rw [show (0x1FFFF : Nat) = 2 ^ 17 - 1 by norm_num, Nat.and_pow_two_sub_one_eq_mod]
  have e16 : ∀ x : Nat, x &&& 0xFFFF = x % 2 ^ 16 := fun x => by
    rw [show (0xFFFF : Nat) = 2 ^ 16 - 1 by norm_num, Nat.and_pow_two_sub_one_eq_mod]
  have e1 : ∀ x : Nat, x &&& 0x1 = x % 2 := fun x => by
    rw [show (0x1 : Nat) = 2 ^ 1 - 1 by norm_num, Nat.and_pow_two_sub_one_eq_mod, pow_one]
  simp only [assemble_li, e17, e16, e1, Nat.shiftRight_eq_div_pow]
  refine ⟨fun hs => ?_, fun hz => ?_, fun hnot1 hnot2 => ?_⟩ <;>
    split_ifs with h1 h2 <;> first | rfl | (exfalso; omega)

/-- C6 witness: `li $t0, 5` emits the single word `0x24080005`
(`ADDIU $t0, $0, 5`), the spec's concrete scenario 5. -/
theorem c6_li_witness :
    5 < 2 ^ 32 ∧ assemble_li 8 5 = [0x24080005] := by
  refine ⟨by norm_num, ?_⟩
  have h := (c6_li_encoding 8 5 (by norm_num)).1 (Or.inl (by decide))
  rw [h]
  decide

/-- Helper for C4: a guarded pass-1 step preserves `base ≤ cursor`,
`cursor < 2 ^ 32` and `highWater ≤ cursor - base`. -/
theorem seg_step_preserves (base limit : Nat) (s : SegState) (op : SegOp)
    (hbase : base < 2 ^ 32)
    (hc1 : base ≤ s.cursor) (hc2 : s.cursor < 2 ^ 32)
    (hhw : s.highWater ≤ s.cursor - base)
    (hok : seg_step_ok s op = true) :
    base ≤ (seg_step base limit s op).cursor
    ∧ (seg_step base limit s op).cursor < 2 ^ 32
    ∧ (seg_step base limit s op).highWater ≤ (seg_step base limit s op).cursor - base := by
  cases op with
  | emit n =>
    simp only [seg_step_ok, decide_eq_true_eq] at hok
    simp only [seg_step, incr_segment_offset, write_segment_memory]
    refine ⟨?_, ?_, ?_⟩ <;> omega
  | skip n =>
    simp only [seg_step_ok, decide_eq_true_eq] at hok
    simp only [seg_step, incr_segment_offset]
    refine ⟨?_, ?_, ?_⟩ <;> omega
  | align n =>
    simp only [seg_step_ok, Bool.or_eq_true, decide_eq_true_eq] at hok
    simp only [seg_step]
    rcases hok with h31 | hfit
    · rw [align_segment_offset_ge31 s.cursor n h31]
      exact ⟨hc1, hc2, hhw⟩
    · by_cases hn0 : n = 0
      · subst hn0
        rw [align_segment_offset_zero s.cursor]
        exact ⟨hc1, hc2, hhw⟩
      · by_cases h31b : 31 ≤ n
        · rw [align_segment_offset_ge31 s.cursor n h31b]
          exact ⟨hc1, hc2, hhw⟩
        · have hfit' : s.cursor + 2 ^ n ≤ 2 ^ 32 := by
            rwa [Nat.shiftLeft_eq, one_mul] at hfit
          obtain ⟨_, hge, hlt, _, _⟩ :=
            align_segment_offset_spec s.cursor n (by omega) (by omega) hfit'
          exact ⟨le_trans hc1 hge, lt_of_lt_of_le hlt hfit',
            le_trans hhw (Nat.sub_le_sub_right hge base)⟩
  | restore c =>
    simp [seg_step_ok] at hok

/-- Helper for C4: running a guarded pass-1 sequence preserves the
segment invariants. -/
theorem seg_run_preserves (base limit : Nat) (hbase : base < 2 ^ 32) :
    ∀ (ops : List SegOp) (s : SegState),
      base ≤ s.cursor → s.cursor < 2 ^ 32 → s.highWater ≤ s.cursor - base →
      seg_run_ok base limit s ops = true →
      base ≤ (seg_run base limit s ops).cursor
      ∧ (seg_run base limit s ops).cursor < 2 ^ 32
      ∧ (seg_run base limit s ops).highWater ≤ (seg_run base limit s ops).cursor - base := by
  intro ops
  induction ops with
  | nil =>
    intro s h1 h2 h3 _
    simpa [seg_run] using ⟨h1, h2, h3⟩
  | cons op ops ih =>
    intro s h1 h2 h3 hok
    simp only [seg_run_ok, Bool.and_eq_true] at hok
    have hstep := seg_step_preserves base limit s op hbase h1 h2 h3 hok.1
    have hrest := ih (seg_step base limit s op) hstep.1 hstep.2.1 hstep.2.2 hok.2
    simpa [seg_run] using hrest

/-- Helper for C4: along a guarded sequence with no `align` step, either
the cursor stays within the segment limit or the fail status has been
raised (only `incr_segment_offset` checks the limit; the check fires
exactly when the new cursor exceeds it). -/
theorem seg_run_limit (base limit : Nat) :
    ∀ (ops : List SegOp) (s : SegState),
      (s.cursor ≤ limit ∨ s.failed = true) →
      seg_align_free ops = true →
      seg_run_ok base limit s ops = true →
      (seg_run base limit s ops).cursor ≤ limit
      ∨ (seg_run base limit s ops).failed = true := by
  intro ops
  induction ops with
  | nil =>
    intro s h _ _
    simpa [seg_run] using h
  | cons op ops ih =>
    intro s h haf hok
    simp only [seg_run_ok, Bool.and_eq_true] at hok
    simp only [seg_align_free, List.all_cons, Bool.and_eq_true] at haf
    have hstep : (seg_step base limit s op).cursor ≤ limit
        ∨ (seg_step base limit s op).failed = true := by
      cases op with
      | emit n =>
        simp only [seg_step, incr_segment_offset, write_segment_memory]
        by_cases hl : (s.cursor + n) % 2 ^ 32 ≤ limit
        · exact Or.inl hl
        · refine Or.inr ?_
          simp only [Bool.or_eq_true, decide_eq_true_eq]
          omega
      | skip n =>
        simp only [seg_step, incr_segment_offset]
        by_cases hl : (s.cursor + n) % 2 ^ 32 ≤ limit
        · exact Or.inl hl
        · refine Or.inr ?_
          simp only [Bool.or_eq_true, decide_eq_true_eq]
          omega
      | align n =>
        exact absurd haf.1 (by simp)
      | restore c =>
        simp [seg_step_ok] at hok
    have := ih (seg_step base limit s op) hstep haf.2 hok.2
    simpa [seg_run] using this

/-- C4 counterexample: the claim asserts `high_water ≤ cursor - base`
also while the deferred-resolution pass restores the cursor to a pending
record's snapshot.  In the run `skip 4` (a deferred branch reserving 4
bytes at the text base), `emit 4` (the label's instruction), then
`restore 0x00400000` (the replay restoring the snapshot,
assembler.c:1540), the high-water mark is 8 while `cursor - base = 0`. -/
theorem c4_replay_highwater_counterexample :
    ¬ ((seg_run 0x00400000 0x0FFFFFFF (seg_init 0x00400000)
          [.skip 4, .emit 4, .restore 0x00400000]).highWater
        ≤ (seg_run 0x00400000 0x0FFFFFFF (seg_init 0x00400000)
          [.skip 4, .emit 4, .restore 0x00400000]).cursor - 0x00400000) := by
  decide

/-- C4 amended: throughout pass 1 (no cursor restore; every advance free
of `uint32_t` wrap) each segment satisfies `base ≤ cursor` and
`high_water ≤ cursor - base`; and along `align`-free runs the cursor is
within the limit or the fail status has been raised (the limit check
lives only in `incr_segment_offset`, which flags the error but still
lets the cursor take the exceeding value; `align_segment_offset` skips
the check).  During the deferred-resolution pass the cursor restore can
make `high_water` exceed `cursor - base` (see the counterexample). -/
theorem c4_segment_invariants (base limit : Nat) (ops : List SegOp)
    (hbase : base < 2 ^ 32) (hbl : base ≤ limit)
    (hok : seg_run_ok base limit (seg_init base) ops = true) :
    (base ≤ (seg_run base limit (seg_init base) ops).cursor
      ∧ (seg_run base limit (seg_init base) ops).highWater
          ≤ (seg_run base limit (seg_init base) ops).cursor - base)
    ∧ (seg_align_free ops = true →
        (seg_run base limit (seg_init base) ops).cursor ≤ limit
        ∨ (seg_run base limit (seg_init base) ops).failed = true) := by
  have h := seg_run_preserves base limit hbase ops (seg_init base)
    (le_refl base) hbase (by simp [seg_init]) hok
  exact ⟨⟨h.1, h.2.2⟩,
    fun haf => seg_run_limit base limit ops (seg_init base) (Or.inl hbl) haf hok⟩

/-- C4 witness: a concrete pass-1 run over the user-text segment — emit
a word, reserve 8 bytes, emit a word — satisfies the invariants. -/
theorem c4_segment_witness :
    (0x00400000 : Nat) < 2 ^ 32 ∧ (0x00400000 : Nat) ≤ 0x0FFFFFFF
    ∧ seg_run_ok 0x00400000 0x0FFFFFFF (seg_init 0x00400000)
        [.emit 4, .skip 8, .emit 4] = true
    ∧ ((0x00400000 ≤ (seg_run 0x00400000 0x0FFFFFFF (seg_init 0x00400000)
          [.emit 4, .skip 8, .emit 4]).cursor
        ∧ (seg_run 0x00400000 0x0FFFFFFF (seg_init 0x00400000)
            [.emit 4, .skip 8, .emit 4]).highWater
          ≤ (seg_run 0x00400000 0x0FFFFFFF (seg_init 0x00400000)
            [.emit 4, .skip 8, .emit 4]).cursor - 0x00400000)
      ∧ (seg_align_free [.emit 4, .skip 8, .emit 4] = true →
          (seg_run 0x00400000 0x0FFFFFFF (seg_init 0x00400000)
            [.emit 4, .skip 8, .emit 4]).cursor ≤ 0x0FFFFFFF
          ∨ (seg_run 0x00400000 0x0FFFFFFF (seg_init 0x00400000)
            [.emit 4, .skip 8, .emit 4]).failed = true)) :=
  ⟨by norm_num, by norm_num, by decide,
    c4_segment_invariants 0x00400000 0x0FFFFFFF [.emit 4, .skip 8, .emit 4]
      (by norm_num) (by norm_num) (by decide)⟩

/-- Helper: `set` then `getD` at the written index. -/
theorem list_getD_set_self (l : List α) (i : Nat) (v d : α) (h : i < l.length) :
    (l.set i v).getD i d = v := by
  induction l generalizing i with
  | nil => simp at h
  | cons x xs ih =>
    cases i with
    | zero => simp [List.set]
    | succ j =>
      simp only [List.set, List.getD_cons_succ]
      exact ih j (by simpa using h)

/-- Helper: `set` then `getD` at a different index. -/
theorem list_getD_set_ne (l : List α) (i j : Nat) (v d : α) (h : i ≠ j) :
    (l.set i v).getD j d = l.getD j d := by
  induction l generalizing i j with
  | nil => simp [List.set]
  | cons x xs ih =>
    cases i with
    | zero =>
      cases j with
      | zero => exact absurd rfl h
      | succ je => simp [List.set, List.getD_cons_succ]
    | succ ie =>
      cases j with
      | zero => simp [List.set, List.getD_cons_zero]
      | succ je =>
        simp only [List.set, List.getD_cons_succ]
        exact ih ie je (by omega)

/-- Helper: `getD` on a replicated list with the same default. -/
theorem list_getD_replicate (n j : Nat) (d : α) :
    (List.replicate n d).getD j d = d := by
  induction n generalizing j with
  | zero => simp [List.replicate]
  | succ m ih =>
    cases j with
    | zero => simp [List.replicate]
    | succ je =>
      rw [List.replicate, List.getD_cons_succ]
      exact ih je

/-- Helper: membership in a flattened bucket list, indexed through
`getD`. -/
theorem mem_flatten_iff_getD (bs : List (List α)) (x : α) :
    x ∈ bs.flatten ↔ ∃ j, j < bs.length ∧ x ∈ bs.getD j [] := by
  induction bs with
  | nil => simp
  | cons b bs ih =>
    simp only [List.flatten_cons, List.mem_append, ih]
    constructor
    · rintro (hx | ⟨j, hj, hx⟩)
      · exact ⟨0, by simp, by simpa using hx⟩
      · exact ⟨j + 1, by simpa using hj, by simpa [List.getD_cons_succ] using hx⟩
    · rintro ⟨j, hj, hx⟩
      cases j with
      | zero => exact Or.inl (by simpa using hx)
      | succ j =>
        exact Or.inr ⟨j, by simpa using hj, by simpa [List.getD_cons_succ] using hx⟩

/-- Helper: filtering by a predicate implied by the search predicate does
not change the result of `find?`. -/
theorem find?_filter_of_imp (l : List α) (p q : α → Bool)
    (h : ∀ e, q e = true → p e = true) :
    (l.filter p).find? q = l.find? q := by
  induction l with
  | nil => rfl
  | cons x xs ih =>
    by_cases hq : q x = true
    · rw [List.filter_cons_of_pos (h x hq), List.find?_cons_of_pos _ hq,
        List.find?_cons_of_pos _ hq]
    · by_cases hp : p x = true
      · rw [List.filter_cons_of_pos hp, List.find?_cons_of_neg _ hq,
          List.find?_cons_of_neg _ hq, ih]
      · rw [List.filter_cons_of_neg hp, List.find?_cons_of_neg _ hq, ih]

/-- Helper: when every element outside bucket `i` fails the predicate,
searching the flattened table equals searching bucket `i`. -/
theorem flatten_find?_eq_bucket (q : α → Bool) :
    ∀ (bs : List (List α)) (i : Nat),
      (∀ j, j < bs.length → j ≠ i → ∀ e ∈ bs.getD j [], q e = false) →
      bs.flatten.find? q = (bs.getD i []).find? q := by
  intro bs
  induction bs with
  | nil =>
    intro i _
    cases i <;> simp
  | cons b bs ih =>
    intro i h
    rw [List.flatten_cons, List.find?_append]
    cases i with
    | zero =>
      have hnone : bs.flatten.find? q = none := by
        rw [List.find?_eq_none]
        intro x hx
        obtain ⟨j, hj, hxj⟩ := (mem_flatten_iff_getD bs x).1 hx
        have hq := h (j + 1) (by simpa using hj) (by omega) x
          (by simpa [List.getD_cons_succ] using hxj)
        simp [hq]
      rw [hnone, Option.or_none]
      simp
    | succ i =>
      have hb : b.find? q = none := by
        rw [List.find?_eq_none]
        intro x hx
        have hq := h 0 (by simp) (by omega) x (by simpa using hx)
        simp [hq]
      rw [hb, Option.none_or, List.getD_cons_succ]
      exact ih i fun j hj hne e he =>
        h (j + 1) (by simpa using hj) (by omega) e
          (by simpa [List.getD_cons_succ] using he)

/-- Helper: `insert_at_index_st` keeps the bucket count. -/
theorem insert_at_index_st_length (t : SymbolTable) (i : Nat) (e : STEntry) :
    (insert_at_index_st t i e).buckets.length = t.buckets.length := by
  simp [insert_at_index_st]

/-- Helper: `insert_at_index_st` appends at the tail of the chosen
chain. -/
theorem insert_at_index_st_getD_self (t : SymbolTable) (i : Nat) (e : STEntry)
    (h : i < t.buckets.length) :
    (insert_at_index_st t i e).buckets.getD i [] = t.buckets.getD i [] ++ [e] :=
  list_getD_set_self _ _ _ _ h

/-- Helper: `insert_at_index_st` leaves the other chains unchanged. -/
theorem insert_at_index_st_getD_ne (t : SymbolTable) (i j : Nat) (e : STEntry)
    (h : i ≠ j) :
    (insert_at_index_st t i e).buckets.getD j [] = t.buckets.getD j [] :=
  list_getD_set_ne _ _ _ _ _ h

/-- Helper: the redistribution fold of `percolate_symbol_table` keeps
the accumulator's bucket count. -/
theorem redist_fold_length (s : Nat) :
    ∀ (es : List STEntry) (acc : SymbolTable),
      ((es.foldl (fun a e => insert_at_index_st a (bucket_index s e.key) e)
        acc).buckets.length) = acc.buckets.length := by
  intro es
  induction es with
  | nil => intro acc; rfl
  | cons e es ih =>
    intro acc
    rw [List.foldl_cons, ih, insert_at_index_st_length]

/-- Helper: after the redistribution fold, chain `j` holds the old chain
followed by exactly the reinserted entries whose key hashes to `j`, in
their traversal order. -/
theorem redist_fold_getD (s : Nat) :
    ∀ (es : List STEntry) (acc : SymbolTable), acc.buckets.length = s → ∀ j, j < s →
      ((es.foldl (fun a e => insert_at_index_st a (bucket_index s e.key) e)
          acc).buckets.getD j [])
        = acc.buckets.getD j [] ++ es.filter (fun e => bucket_index s e.key == j) := by
  intro es
  induction es with
  | nil =>
    intro acc hacc j hj
    simp
  | cons e es ih =>
    intro acc hacc j hj
    rw [List.foldl_cons]
    have hacc' : (insert_at_index_st acc (bucket_index s e.key) e).buckets.length = s := by
      rw [insert_at_index_st_length, hacc]
    rw [ih _ hacc' j hj, List.filter_cons]
    by_cases hij : bucket_index s e.key = j
    · rw [hij, insert_at_index_st_getD_self _ _ _ (by rw [hacc]; exact hj)]
      simp [hij]
    · rw [insert_at_index_st_getD_ne _ _ _ _ hij]
      simp [hij]

/-- Helper: `percolate_symbol_table` preserves every lookup result on a
well-formed table. -/
theorem percolate_get (t : SymbolTable) (hWF : TableWF t) (key : List Nat) :
    get_symbol_table (percolate_symbol_table t) key = get_symbol_table t key := by
  obtain ⟨hpos, hhome⟩ := hWF
  unfold percolate_symbol_table
  by_cases hc : 7 * t.buckets.length ≤ 10 * t.length
  · rw [if_pos hc]
    have hs2 : 0 < 2 * t.buckets.length := by omega
    have hlen : ((t.buckets.flatten.foldl
        (fun acc e => insert_at_index_st acc (bucket_index (2 * t.buckets.length) e.key) e)
        ⟨List.replicate (2 * t.buckets.length) [], 0⟩ : SymbolTable)).buckets.length
        = 2 * t.buckets.length := by
      rw [redist_fold_length]
      simp
    simp only [get_symbol_table, hlen]
    rw [redist_fold_getD (2 * t.buckets.length) t.buckets.flatten _
      (by simp) (bucket_index (2 * t.buckets.length) key) (by exact Nat.mod_lt _ hs2)]
    rw [list_getD_replicate, List.nil_append]
    rw [find?_filter_of_imp]
    · rw [flatten_find?_eq_bucket (fun e => e.key == key) t.buckets
        (bucket_index t.buckets.length key)]
      intro j hj hne e he
      by_cases hqe : (e.key == key) = true
      · have hkey : e.key = key := beq_iff_eq.1 hqe
        have := hhome j hj e he
        rw [hkey] at this
        exact absurd this.symm hne
      · simpa using hqe
    · intro e hqe
      have hkey : e.key = key := beq_iff_eq.1 hqe
      rw [hkey]
      exact beq_self_eq_true _
  · rw [if_neg hc]

/-- Helper: `percolate_symbol_table` preserves the set of entries. -/
theorem percolate_mem (t : SymbolTable) (x : STEntry) :
    x ∈ (percolate_symbol_table t).buckets.flatten ↔ x ∈ t.buckets.flatten := by
  unfold percolate_symbol_table
  by_cases hc : 7 * t.buckets.length ≤ 10 * t.length
  · rw [if_pos hc]
    by_cases hpos : 0 < t.buckets.length
    · have hs2 : 0 < 2 * t.buckets.length := by omega
      have hlen : ((t.buckets.flatten.foldl
          (fun acc e => insert_at_index_st acc (bucket_index (2 * t.buckets.length) e.key) e)
          ⟨List.replicate (2 * t.buckets.length) [], 0⟩ : SymbolTable)).buckets.length
          = 2 * t.buckets.length := by
        rw [redist_fold_length]
        simp
      rw [mem_flatten_iff_getD]
      constructor
      · rintro ⟨j, hj, hx⟩
        rw [hlen] at hj
        rw [redist_fold_getD (2 * t.buckets.length) t.buckets.flatten _ (by simp) j hj,
          list_getD_replicate, List.nil_append] at hx
        exact (List.mem_filter.1 hx).1
      · intro hx
        refine ⟨bucket_index (2 * t.buckets.length) x.key, ?_, ?_⟩
        · rw [hlen]
          exact Nat.mod_lt _ hs2
        · rw [redist_fold_getD (2 * t.buckets.length) t.buckets.flatten _ (by simp)
            (bucket_index (2 * t.buckets.length) x.key) (by exact Nat.mod_lt _ hs2),
            list_getD_replicate, List.nil_append]
          exact List.mem_filter.2 ⟨hx, beq_self_eq_true _⟩
    · have hzero : t.buckets.length = 0 := by omega
      have hnil : t.buckets = [] := List.length_eq_zero.1 hzero
      simp [hnil]
  · rw [if_neg hc]

/-- Helper: `insert_at_index_st` keeps the entry count one higher. -/
theorem insert_at_index_st_count (t : SymbolTable) (i : Nat) (e : STEntry) :
    (insert_at_index_st t i e).length = t.length + 1 := rfl

/-- Helper: inserting an entry into its home bucket preserves table
well-formedness. -/
theorem insert_home_WF (t : SymbolTable) (hWF : TableWF t) (x : STEntry) (i : Nat)
    (hix : bucket_index t.buckets.length x.key = i) :
    TableWF (insert_at_index_st t i x) := by
  obtain ⟨hpos, hhome⟩ := hWF
  have hib : i < t.buckets.length := hix ▸ Nat.mod_lt _ hpos
  constructor
  · rw [insert_at_index_st_length]
    exact hpos
  · intro j hj e he
    rw [insert_at_index_st_length] at hj
    rw [insert_at_index_st_length]
    by_cases hij : i = j
    · rw [← hij] at hj he ⊢
      rw [insert_at_index_st_getD_self _ _ _ hib] at he
      rcases List.mem_append.1 he with hmem | hmem
      · exact hhome i hj e hmem
      · have hex : e = x := by simpa using hmem
        rw [hex]
        exact hix
    · rw [insert_at_index_st_getD_ne _ _ _ _ hij] at he
      exact hhome j hj e he

/-- C7 counterexample: the claim quantifies over every key, but when the
key is already present `insert_symbol_table` appends a second entry at
the tail of the same chain (symtable.c:81-82) while `get_symbol_table`
scans from the head, so the lookup after the second insert returns the
first entry, not the one the second insert created. -/
theorem c7_duplicate_counterexample :
    get_symbol_table (insert_symbol_table (insert_symbol_table create_symbol_table
        [0x61] 0) [0x61] 1) [0x61]
      ≠ some (new_symbol_entry [0x61] 1) := by decide

/-- C7 amended: for every key `k` not already present in a well-formed
table, `insert(k)` followed by `lookup(k)` returns exactly the entry the
insert created; the insert — including the rehash it triggers when the
load factor reaches 0.70, which doubles the bucket count — preserves the
lookup result of every other key; and the capacity doubles exactly when
the post-insert load reaches the threshold. -/
theorem c7_insert_lookup (t : SymbolTable) (key : List Nat) (tag : Nat)
    (hWF : TableWF t)
    (hfresh : ∀ e ∈ t.buckets.flatten, e.key ≠ key) :
    get_symbol_table (insert_symbol_table t key tag) key = some (new_symbol_entry key tag)
    ∧ (∀ k, k ≠ key →
        get_symbol_table (insert_symbol_table t key tag) k = get_symbol_table t k)
    ∧ (insert_symbol_table t key tag).buckets.length
        = (if 7 * t.buckets.length ≤ 10 * (t.length + 1) then 2 * t.buckets.length
           else t.buckets.length) := by
  obtain ⟨hpos, hhome⟩ := hWF
  have hWF' : TableWF t := ⟨hpos, hhome⟩
  have hWF1 : TableWF (insert_at_index_st t (bucket_index t.buckets.length key)
      (new_symbol_entry key tag)) :=
    insert_home_WF t hWF' (new_symbol_entry key tag) (bucket_index t.buckets.length key) rfl
  have hlen1 := insert_at_index_st_length t (bucket_index t.buckets.length key)
    (new_symbol_entry key tag)
  have hbucket := insert_at_index_st_getD_self t (bucket_index t.buckets.length key)
    (new_symbol_entry key tag) (Nat.mod_lt _ hpos)
  have hget_new : get_symbol_table (insert_at_index_st t
      (bucket_index t.buckets.length key) (new_symbol_entry key tag)) key
      = some (new_symbol_entry key tag) := by
    simp only [get_symbol_table, hlen1]
    rw [hbucket, List.find?_append]
    have hnone : (t.buckets.getD (bucket_index t.buckets.length key) []).find?
        (fun e => e.key == key) = none := by
      rw [List.find?_eq_none]
      intro x hx
      have hmem : x ∈ t.buckets.flatten :=
        (mem_flatten_iff_getD _ _).2 ⟨bucket_index t.buckets.length key,
          Nat.mod_lt _ hpos, hx⟩
      simp [hfresh x hmem]
    rw [hnone, Option.none_or]
    rw [List.find?_cons_of_pos _ (by simp [new_symbol_entry])]
  have hstep : get_symbol_table (insert_symbol_table t key tag) key
      = get_symbol_table (insert_at_index_st t (bucket_index t.buckets.length key)
          (new_symbol_entry key tag)) key := percolate_get _ hWF1 key
  refine ⟨hstep.trans hget_new, ?_, ?_⟩
  · intro k hk
    have hstepk : get_symbol_table (insert_symbol_table t key tag) k
        = get_symbol_table (insert_at_index_st t (bucket_index t.buckets.length key)
            (new_symbol_entry key tag)) k := percolate_get _ hWF1 k
    rw [hstepk]
    simp only [get_symbol_table, hlen1]
    by_cases hij : bucket_index t.buckets.length key = bucket_index t.buckets.length k
    · rw [← hij, hbucket, List.find?_append]
      have hlast : List.find? (fun e => e.key == k) [new_symbol_entry key tag] = none := by
        rw [List.find?_cons_of_neg]
        · rfl
        · simp only [new_symbol_entry]
          simp only [beq_iff_eq]
          exact fun h => hk h.symm
      rw [hlast, Option.or_none]
    · rw [insert_at_index_st_getD_ne _ _ _ _ hij]
  · show (percolate_symbol_table (insert_at_index_st t
        (bucket_index t.buckets.length key) (new_symbol_entry key tag))).buckets.length = _
    unfold percolate_symbol_table
    simp only [insert_at_index_st_length, insert_at_index_st_count]
    by_cases hc : 7 * t.buckets.length ≤ 10 * (t.length + 1)
    · rw [if_pos hc, if_pos hc, redist_fold_length]
      simp
    · rw [if_neg hc, if_neg hc, insert_at_index_st_length]

/-- C7 witness: inserting a fresh key into the freshly created table and
looking it up returns the created entry. -/
theorem c7_fresh_witness :
    TableWF create_symbol_table
    ∧ (∀ e ∈ create_symbol_table.buckets.flatten, e.key ≠ [0x61])
    ∧ get_symbol_table (insert_symbol_table create_symbol_table [0x61] 5) [0x61]
        = some (new_symbol_entry [0x61] 5) :=
  ⟨by decide, by decide,
    (c7_insert_lookup create_symbol_table [0x61] 5 (by decide) (by decide)).1⟩

/-- C9: `insert_symbol_table` never deduplicates: for a key already
present (lookup finds the entry `e` that was inserted first), inserting
the key again creates a second, distinct entry initialized to status
`SYMBOL_UNDEFINED`, offset 0 and segment `SEGMENT_TEXT`; both entries
remain in the table; and a subsequent lookup still returns `e`, the
first-inserted entry, because `insert_at_index_st` appends at the tail
of the chain while `get_symbol_table` scans from the head —
redistribution on rehash preserves the chain order of equal keys. -/
theorem c9_duplicate_insert (t : SymbolTable) (key : List Nat) (tag : Nat) (e : STEntry)
    (hWF : TableWF t)
    (hfound : get_symbol_table t key = some e)
    (htag : e.tag ≠ tag) :
    new_symbol_entry key tag ∈ (insert_symbol_table t key tag).buckets.flatten
    ∧ e ∈ (insert_symbol_table t key tag).buckets.flatten
    ∧ get_symbol_table (insert_symbol_table t key tag) key = some e
    ∧ e ≠ new_symbol_entry key tag := by
  obtain ⟨hpos, hhome⟩ := hWF
  have hWF' : TableWF t := ⟨hpos, hhome⟩
  have hWF1 : TableWF (insert_at_index_st t (bucket_index t.buckets.length key)
      (new_symbol_entry key tag)) :=
    insert_home_WF t hWF' (new_symbol_entry key tag) (bucket_index t.buckets.length key) rfl
  have hlen1 := insert_at_index_st_length t (bucket_index t.buckets.length key)
    (new_symbol_entry key tag)
  have hbucket := insert_at_index_st_getD_self t (bucket_index t.buckets.length key)
    (new_symbol_entry key tag) (Nat.mod_lt _ hpos)
  have hfind : (t.buckets.getD (bucket_index t.buckets.length key) []).find?
      (fun x => x.key == key) = some e := hfound
  refine ⟨?_, ?_, ?_, ?_⟩
  · exact (percolate_mem _ _).2 ((mem_flatten_iff_getD _ _).2
      ⟨bucket_index t.buckets.length key,
        by rw [hlen1]; exact Nat.mod_lt _ hpos,
        by rw [hbucket]; exact List.mem_append.2 (Or.inr (by simp))⟩)
  · exact (percolate_mem _ _).2 ((mem_flatten_iff_getD _ _).2
      ⟨bucket_index t.buckets.length key,
        by rw [hlen1]; exact Nat.mod_lt _ hpos,
        by rw [hbucket];
           exact List.mem_append.2 (Or.inl (List.mem_of_find?_eq_some hfind))⟩)
  · have hstep : get_symbol_table (percolate_symbol_table (insert_at_index_st t
        (bucket_index t.buckets.length key) (new_symbol_entry key tag))) key
        = get_symbol_table (insert_at_index_st t (bucket_index t.buckets.length key)
            (new_symbol_entry key tag)) key := percolate_get _ hWF1 key
    have h2 : get_symbol_table (insert_at_index_st t
        (bucket_index t.buckets.length key) (new_symbol_entry key tag)) key = some e := by
      simp only [get_symbol_table, hlen1]
      rw [hbucket, List.find?_append, hfind]
      rfl
    exact hstep.trans h2
  · intro hcontr
    exact htag (congrArg STEntry.tag hcontr)

/-- C9 witness: inserting the key `"a"` twice into the fresh table keeps
both entries, and lookup returns the first one. -/
theorem c9_duplicate_witness :
    TableWF (insert_symbol_table create_symbol_table [0x61] 0)
    ∧ get_symbol_table (insert_symbol_table create_symbol_table [0x61] 0) [0x61]
        = some (new_symbol_entry [0x61] 0)
    ∧ (new_symbol_entry [0x61] 0).tag ≠ 1
    ∧ get_symbol_table (insert_symbol_table (insert_symbol_table create_symbol_table
          [0x61] 0) [0x61] 1) [0x61]
        = some (new_symbol_entry [0x61] 0) :=
  ⟨by decide, by decide, by decide,
    (c9_duplicate_insert (insert_symbol_table create_symbol_table [0x61] 0) [0x61] 1
      (new_symbol_entry [0x61] 0) (by decide) (by decide) (by decide)).2.2.1⟩
